import Mathlib

/-!
Verification of FATS (src/fats.py), a FUSE passthrough filesystem that
serves a radamsa-fuzzed temporary copy of each file on open and deletes
that copy on release.

The embedding models the Python source shallowly:
* paths are Lean strings; the helpers mirror the behavior of the
  concrete `os.path` calls made in the source (`join`, `relpath`, string
  slicing and `startswith`);
* the mutable state of the `FATS` class is the pair of the handle table
  `self.temp_files` (an association list from file handles to temp paths)
  and the set of temp-artifact paths currently present on disk;
* external outcomes (temp-file allocation, the radamsa subprocess, the
  native `os.open`, `os.remove` during release) are inputs of each
  operation, one constructor per `try`/`except` branch of the source.
-/

namespace FATS

/-! ## Association-list and list helpers

`self.temp_files` is a Python dict with integer keys; we model it as an
association list with the dict operations used by the source:
lookup (`temp_files[fh]` / `pop` result), removal (`pop`), and the
per-key update used to model file-size maps.  Python dict keys are
unique; the removal and update functions act on every occurrence, which
coincides with the dict behavior on the unique-key tables the program
builds. -/

def assocGet {α β : Type} [DecidableEq α] (a : α) : List (α × β) → Option β
  | [] => none
  | (k, v) :: t => if k = a then some v else assocGet a t

def assocRemove {α β : Type} [DecidableEq α] (a : α) : List (α × β) → List (α × β)
  | [] => []
  | (k, v) :: t => if k = a then assocRemove a t else (k, v) :: assocRemove a t

def assocSet {α β : Type} [DecidableEq α] (a : α) (b : β) : List (α × β) → List (α × β)
  | [] => []
  | (k, v) :: t => if k = a then (k, b) :: assocSet a b t else (k, v) :: assocSet a b t

/-- Removal of one path from the on-disk set (the effect of `os.remove`). -/
def listRemove {α : Type} [DecidableEq α] (a : α) : List α → List α
  | [] => []
  | x :: t => if x = a then listRemove a t else x :: listRemove a t

/-! ## Path helpers

String-level models of the concrete `os.path` operations the source
uses.  Python's `s.startswith("/")`, `s[1:]` and `s.endswith("/")` are
modelled character-exactly via the string's character list. -/

/-- Python `s.startswith("/")`. -/
def startsWithSlash (s : String) : Bool :=
  match s.data with
  | [] => false
  | c :: _ => c == '/'

/-- Python `s.endswith("/")`. -/
def endsWithSlash (s : String) : Bool :=
  match s.data.getLast? with
  | some c => c == '/'
  | none => false

/-- Python `s[1:]`. -/
def dropFirstChar (s : String) : String :=
  match s.data with
  | [] => s
  | _ :: cs => String.mk cs

/-- `posixpath.join(a, b)` for two components, as the source calls it:
if `b` is absolute the result is `b`; otherwise `b` is appended to `a`,
inserting a separator unless `a` is empty or already ends in one. -/
def os_path_join (a b : String) : String :=
  if startsWithSlash b then b
  else if a = "" then b
  else if endsWithSlash a then a ++ b
  else a ++ "/" ++ b

/-- `FATS._full_path` (src/fats.py:62-76): strip a single leading
separator if present, then `os.path.join` with the mirror root. -/
def full_path (root vp : String) : String :=
  if startsWithSlash vp then os_path_join root (dropFirstChar vp)
  else os_path_join root vp

/-- The remainder of a virtual path after `_full_path` strips one
leading separator; used to state the resolution contract. -/
def stripLeadingSlash (vp : String) : String :=
  if startsWithSlash vp then dropFirstChar vp else vp

/-- Python `s.split("/")` on the character list, accumulating the
current component. -/
def splitSlashAux : List Char → List Char → List String
  | [], acc => [String.mk acc.reverse]
  | c :: cs, acc =>
    if c = '/' then String.mk acc.reverse :: splitSlashAux cs []
    else splitSlashAux cs (c :: acc)

/-- The non-empty components of a path: `[x for x in s.split(sep) if x]`,
exactly the component lists `posixpath.relpath` builds. -/
def pathComps (s : String) : List String :=
  (splitSlashAux s.data []).filter (fun c => c != "")

/-- The stack loop of `posixpath.normpath` on an absolute path's
components: `.` is dropped, `..` pops the previous component (at the
root it is dropped), everything else is pushed. `posixpath.relpath`
normalizes both arguments through `abspath` before comparing them. -/
def normAbsGo : List String → List String → List String
  | acc, [] => acc
  | acc, c :: cs =>
    if c = "." then normAbsGo acc cs
    else if c = ".." then normAbsGo acc.dropLast cs
    else normAbsGo (acc ++ [c]) cs

/-- Length of the common prefix of two component lists
(`posixpath.commonprefix` as used by `relpath`). -/
def commonLen : List String → List String → Nat
  | a :: as, b :: bs => if a = b then commonLen as bs + 1 else 0
  | _, _ => 0

/-- `posixpath.join(*comps)` for a list of relative components. -/
def joinSlash : List String → String
  | [] => ""
  | [x] => x
  | x :: xs => x ++ "/" ++ joinSlash xs

/-- `posixpath.relpath(path, start)` for absolute arguments: normalize
both component lists, drop the common prefix, prepend one `..` per
remaining `start` component. -/
def relpath (path start : String) : String :=
  let sl := normAbsGo [] (pathComps start)
  let pl := normAbsGo [] (pathComps path)
  let i := commonLen sl pl
  let rel := List.replicate (sl.length - i) ".." ++ pl.drop i
  if rel = [] then "." else joinSlash rel

/-! ## Core state -/

/-- `self.temp_files`: file handle ↦ temp artifact path. -/
abbrev HandleTable := List (Nat × String)

/-- The mutable state the open/release lifecycle touches: the handle
table and the set of temp-artifact paths currently on disk. -/
structure FState where
  table : HandleTable
  disk : List String
deriving Repr, DecidableEq

/-- Outcome of the temp-file allocation block (src/fats.py:188-194):
`NamedTemporaryFile` may fail outright, or the follow-up `close()` may
fail after the file already exists on disk, or the block succeeds. -/
inductive TempAlloc
  | failNone
  | failAfter (p : String)
  | ok (p : String)
deriving Repr, DecidableEq

/-- Outcome of the radamsa invocation block (src/fats.py:197-213), one
constructor per `except` clause of the source plus success. -/
inductive MutateOutcome
  | ok
  | notFound
  | calledProcessError
  | otherError
deriving Repr, DecidableEq

/-- The external outcomes one `open` call can observe. -/
structure OpenEnv where
  temp : TempAlloc
  mutate : MutateOutcome
  nativeFh : Option Nat
deriving Repr, DecidableEq

/-- What one `open` call returns to FUSE: a handle, a handled
`FuseOSError(EIO)`, or an unhandled exception propagating out. -/
inductive OpenResult
  | handle (fh : Nat)
  | ioError
  | raised
deriving Repr, DecidableEq

/-- `FATS.open` (src/fats.py:175-222).  Branch by branch:
temp allocation failure before a file exists raises EIO with nothing on
disk; a failure after the temp file exists raises EIO with the file left
behind (the `except` clause does not remove it); each radamsa failure
removes the temp file and raises EIO; after a successful mutation the
source calls `os.open(temp_fuzzed_path, flags)` outside any `try`, so a
native-open failure propagates with the temp file still on disk; on
success the handle is registered and returned.  `os.remove` inside the
handled error branches is modelled as succeeding. -/
def fats_open (st : FState) (env : OpenEnv) : FState × OpenResult :=
  match env.temp with
  | TempAlloc.failNone => (st, OpenResult.ioError)
  | TempAlloc.failAfter p => (FState.mk st.table (p :: st.disk), OpenResult.ioError)
  | TempAlloc.ok p =>
    match env.mutate with
    | MutateOutcome.notFound =>
        (FState.mk st.table (listRemove p (p :: st.disk)), OpenResult.ioError)
    | MutateOutcome.calledProcessError =>
        (FState.mk st.table (listRemove p (p :: st.disk)), OpenResult.ioError)
    | MutateOutcome.otherError =>
        (FState.mk st.table (listRemove p (p :: st.disk)), OpenResult.ioError)
    | MutateOutcome.ok =>
      match env.nativeFh with
      | none => (FState.mk st.table (p :: st.disk), OpenResult.raised)
      | some fh => (FState.mk ((fh, p) :: st.table) (p :: st.disk), OpenResult.handle fh)

/-- Observable effects of one `release` call. -/
structure ReleaseLog where
  deleteAttempted : Bool
  closed : Bool
deriving Repr, DecidableEq

/-- `FATS.release` (src/fats.py:255-270): `pop` the handle's entry; if a
truthy path came back, try `os.remove` (an `OSError` is caught and only
printed, `removeOk` says which happened); finally `os.close(fh)` runs on
every branch. -/
def fats_release (st : FState) (fh : Nat) (removeOk : Bool) : FState × ReleaseLog :=
  match assocGet fh st.table with
  | some p =>
    if p ≠ "" then
      if removeOk then
        (FState.mk (assocRemove fh st.table) (listRemove p st.disk), ReleaseLog.mk true true)
      else
        (FState.mk (assocRemove fh st.table) st.disk, ReleaseLog.mk true true)
    else
      (FState.mk (assocRemove fh st.table) st.disk, ReleaseLog.mk false true)
  | none => (FState.mk (assocRemove fh st.table) st.disk, ReleaseLog.mk false true)

/-! ## Reachable states

One step is a completed `open` or `release` call.  The environment
conditions reflect the collaborators' contracts: `NamedTemporaryFile`
returns a fresh, non-empty name of a file that did not exist, and
`os.open` returns a descriptor that is not a live key of the table. -/

/-- Any completed `open`/`release` call, failures included. -/
inductive Step : FState → FState → Prop
  | openStep (st : FState) (env : OpenEnv)
      (hok : ∀ p, env.temp = TempAlloc.ok p → p ∉ st.disk ∧ p ≠ "")
      (hfa : ∀ p, env.temp = TempAlloc.failAfter p → p ∉ st.disk ∧ p ≠ "")
      (hfh : ∀ fh, env.nativeFh = some fh → assocGet fh st.table = none) :
      Step st (fats_open st env).1
  | releaseStep (st : FState) (fh : Nat) (removeOk : Bool) :
      Step st (fats_release st fh removeOk).1

/-- States reachable from the initial empty state by any sequence of
`open`/`release` calls. -/
inductive Reach : FState → Prop
  | init : Reach (FState.mk [] [])
  | step {st st2 : FState} : Reach st → Step st st2 → Reach st2

/-- A completed call in which no unhandled failure occurs: temp
allocation either fails before the file exists or succeeds, a successful
mutation is followed by a successful native open, and the `os.remove` of
`release` succeeds. -/
inductive GoodStep : FState → FState → Prop
  | openStep (st : FState) (env : OpenEnv)
      (hok : ∀ p, env.temp = TempAlloc.ok p → p ∉ st.disk ∧ p ≠ "")
      (hfa : ∀ p, env.temp ≠ TempAlloc.failAfter p)
      (hfh : ∀ fh, env.nativeFh = some fh → assocGet fh st.table = none)
      (hng : env.mutate = MutateOutcome.ok → env.nativeFh ≠ none) :
      GoodStep st (fats_open st env).1
  | releaseStep (st : FState) (fh : Nat) :
      GoodStep st (fats_release st fh true).1

/-- States reachable by failure-free calls. -/
inductive ReachGood : FState → Prop
  | init : ReachGood (FState.mk [] [])
  | step {st st2 : FState} : ReachGood st → GoodStep st st2 → ReachGood st2

/-- The spec's TempArtifact invariant: a temp artifact is on disk iff
some live handle maps to it. -/
def Inv (st : FState) : Prop :=
  ∀ p, p ∈ st.disk ↔ ∃ fh, (fh, p) ∈ st.table

/-- Strengthened inductive invariant: the correspondence plus key and
value uniqueness of the table and non-emptiness of every stored path. -/
def GoodInv (st : FState) : Prop :=
  Inv st ∧ (st.table.map Prod.fst).Nodup ∧ (st.table.map Prod.snd).Nodup ∧
    ∀ e ∈ st.table, e.2 ≠ ""

/-! ## Passthrough operations -/

/-- `FATS.readlink` (src/fats.py:120-127): read the stored link target
from the real filesystem; if it is absolute, return
`os.path.relpath(target, self.root)`; otherwise return it unchanged. -/
def fats_readlink (root target : String) : String :=
  if startsWithSlash target then relpath target root else target

/-- `FATS.readdir` (src/fats.py:109-118): start from `['.', '..']` and
extend with `os.listdir` of the resolved path when it is a directory.
The storage driver is abstracted as the pair `isdir`/`listdir`. -/
def fats_readdir (root : String) (isdir : String → Bool)
    (listdir : String → List String) (path : String) : List String :=
  if isdir (full_path root path) then ["." , ".."] ++ listdir (full_path root path)
  else ["." , ".."]

/-- Result of a truncate call: `ok`, or the error `open(full_path, 'r+')`
raises when the real file is missing. -/
inductive TruncResult
  | ok
  | errNoFile
deriving Repr, DecidableEq

/-- `FATS.truncate` (src/fats.py:239-249).  The filesystem is a map
path ↦ size covering real files and temp artifacts alike.  With a
handle the source executes `pass`: the handle table `self.temp_files`
is in scope but never consulted and nothing is modified.  Path-only, it
opens the resolved real path `r+` (failing when absent) and truncates
it to `length`. -/
def fats_truncate (root : String) (_tbl : HandleTable) (sizes : List (String × Nat))
    (path : String) (len : Nat) (fh : Option Nat) : List (String × Nat) × TruncResult :=
  match fh with
  | some _ => (sizes, TruncResult.ok)
  | none =>
    match assocGet (full_path root path) sizes with
    | none => (sizes, TruncResult.errNoFile)
    | some _ => (assocSet (full_path root path) len sizes, TruncResult.ok)

/-- Calls an operation can make to the storage driver and to the
mutation collaborator. -/
inductive DriverCall
  | makeTemp (p : String)
  | runMutator (source : String)
  | openCreate (realPath : String) (mode : Nat)
deriving Repr, DecidableEq

/-- Test for the direct native create call. -/
def DriverCall.isOpenCreate : DriverCall → Bool
  | DriverCall.openCreate _ _ => true
  | _ => false

/-- `FATS.create` (src/fats.py:224-227): a single native
`os.open(full_path, O_WRONLY | O_CREAT, mode)` at the resolved path; the
class state is untouched and the driver's descriptor `fh` is returned.
The emitted call list records every collaborator the method touches. -/
def fats_create (root : String) (st : FState) (path : String) (mode : Nat) (fh : Nat) :
    FState × List DriverCall × Nat :=
  (st, [DriverCall.openCreate (full_path root path) mode], fh)

/-- The eight `st_*` fields `getattr` extracts, in source order. -/
structure StatRec where
  st_atime : Int
  st_ctime : Int
  st_gid : Int
  st_mode : Int
  st_mtime : Int
  st_nlink : Int
  st_size : Int
  st_uid : Int
deriving Repr, DecidableEq

/-- The storage driver's two stat views of a real path: `lstatOf` does
not follow symlinks, `statOf` follows them.  `FATS.getattr` only ever
calls the former. -/
structure Driver where
  lstatOf : String → StatRec
  statOf : String → StatRec

/-- The attribute dictionary built at src/fats.py:105-107. -/
def attrDict (s : StatRec) : List (String × Int) :=
  [("st_atime", s.st_atime), ("st_ctime", s.st_ctime), ("st_gid", s.st_gid),
   ("st_mode", s.st_mode), ("st_mtime", s.st_mtime), ("st_nlink", s.st_nlink),
   ("st_size", s.st_size), ("st_uid", s.st_uid)]

/-- `FATS.getattr` (src/fats.py:97-107): `os.lstat` the resolved path
and project the eight fields. -/
def fats_getattr (root : String) (drv : Driver) (path : String) : List (String × Int) :=
  attrDict (drv.lstatOf (full_path root path))

/-! ## Association-list lemmas -/

theorem assocGet_some_mem {α β : Type} [DecidableEq α] {a : α} {t : List (α × β)} {b : β}
    (h : assocGet a t = some b) : (a, b) ∈ t := by
  induction t with
  | nil => simp [assocGet] at h
  | cons e t ih =>
    obtain ⟨k, v⟩ := e
    by_cases hk : k = a
    · subst hk
      simp [assocGet] at h
      simp [h]
    · simp only [assocGet, if_neg hk] at h
      exact List.mem_cons_of_mem _ (ih h)

theorem not_mem_of_assocGet_none {α β : Type} [DecidableEq α] {a : α} {t : List (α × β)}
    (h : assocGet a t = none) (b : β) : (a, b) ∉ t := by
  induction t with
  | nil => simp
  | cons e t ih =>
    obtain ⟨k, v⟩ := e
    by_cases hk : k = a
    · subst hk
      simp [assocGet] at h
    · simp only [assocGet, if_neg hk] at h
      intro hm
      rcases List.mem_cons.mp hm with hm | hm
      · simp at hm
        exact hk hm.1.symm
      · exact ih h hm

theorem assocGet_eq_some_of_nodup {α β : Type} [DecidableEq α] {t : List (α × β)}
    (hnd : (t.map Prod.fst).Nodup) {a : α} {b : β} (hm : (a, b) ∈ t) :
    assocGet a t = some b := by
  induction t with
  | nil => simp at hm
  | cons e t ih =>
    obtain ⟨k, v⟩ := e
    simp only [List.map_cons, List.nodup_cons] at hnd
    rcases List.mem_cons.mp hm with hm | hm
    · simp at hm
      obtain ⟨h1, h2⟩ := hm
      subst h1; subst h2
      simp [assocGet]
    · have hka : k ≠ a := by
        intro he
        subst he
        exact hnd.1 (List.mem_map.mpr ⟨(k, b), hm, rfl⟩)
      simp only [assocGet, if_neg hka]
      exact ih hnd.2 hm

theorem assocGet_assocRemove {α β : Type} [DecidableEq α] (a : α) (t : List (α × β)) :
    assocGet a (assocRemove a t) = none := by
  induction t with
  | nil => rfl
  | cons e t ih =>
    obtain ⟨k, v⟩ := e
    by_cases hk : k = a
    · simp only [assocRemove, if_pos hk]
      exact ih
    · simp only [assocRemove, if_neg hk, assocGet]
      exact ih

theorem mem_assocRemove {α β : Type} [DecidableEq α] {a : α} {t : List (α × β)} {e : α × β} :
    e ∈ assocRemove a t ↔ e ∈ t ∧ e.1 ≠ a := by
  induction t with
  | nil => simp [assocRemove]
  | cons f t ih =>
    obtain ⟨k, v⟩ := f
    by_cases hk : k = a
    · subst hk
      have he : assocRemove k ((k, v) :: t) = assocRemove k t := by
        simp [assocRemove]
      rw [he, ih]
      constructor
      · rintro ⟨h1, h2⟩
        exact ⟨List.mem_cons_of_mem _ h1, h2⟩
      · rintro ⟨h1, h2⟩
        rcases List.mem_cons.mp h1 with h1 | h1
        · exact absurd (by rw [h1]) h2
        · exact ⟨h1, h2⟩
    · simp only [assocRemove, if_neg hk]
      rw [List.mem_cons, ih, List.mem_cons]
      constructor
      · rintro (h | ⟨h1, h2⟩)
        · subst h
          exact ⟨Or.inl rfl, hk⟩
        · exact ⟨Or.inr h1, h2⟩
      · rintro ⟨h | h, h2⟩
        · exact Or.inl h
        · exact Or.inr ⟨h, h2⟩

theorem assocRemove_sublist {α β : Type} [DecidableEq α] (a : α) (t : List (α × β)) :
    List.Sublist (assocRemove a t) t := by
  induction t with
  | nil => exact List.Sublist.slnil
  | cons e t ih =>
    obtain ⟨k, v⟩ := e
    by_cases hk : k = a
    · simp only [assocRemove, if_pos hk]
      exact List.Sublist.cons _ ih
    · simp only [assocRemove, if_neg hk]
      exact List.Sublist.cons₂ _ ih

theorem mem_listRemove {α : Type} [DecidableEq α] {a x : α} {l : List α} :
    x ∈ listRemove a l ↔ x ∈ l ∧ x ≠ a := by
  induction l with
  | nil => simp [listRemove]
  | cons y l ih =>
    by_cases hy : y = a
    · subst hy
      have he : listRemove y (y :: l) = listRemove y l := by
        simp [listRemove]
      rw [he, ih, List.mem_cons]
      constructor
      · rintro ⟨h1, h2⟩
        exact ⟨Or.inr h1, h2⟩
      · rintro ⟨h | h, h2⟩
        · exact absurd h h2
        · exact ⟨h, h2⟩
    · simp only [listRemove, if_neg hy]
      rw [List.mem_cons, ih, List.mem_cons]
      constructor
      · rintro (h | ⟨h1, h2⟩)
        · subst h
          exact ⟨Or.inl rfl, hy⟩
        · exact ⟨Or.inr h1, h2⟩
      · rintro ⟨h | h, h2⟩
        · exact Or.inl h
        · exact Or.inr ⟨h, h2⟩

theorem listRemove_of_not_mem {α : Type} [DecidableEq α] {a : α} {l : List α}
    (h : a ∉ l) : listRemove a l = l := by
  induction l with
  | nil => rfl
  | cons x l ih =>
    simp only [List.mem_cons, not_or] at h
    rw [listRemove, if_neg (fun he => h.1 he.symm), ih h.2]

theorem nodup_values_inj {α β : Type} {t : List (α × β)}
    (hnd : (t.map Prod.snd).Nodup) {a1 a2 : α} {b : β}
    (h1 : (a1, b) ∈ t) (h2 : (a2, b) ∈ t) : a1 = a2 := by
  induction t with
  | nil => simp at h1
  | cons e t ih =>
    obtain ⟨k, v⟩ := e
    simp only [List.map_cons, List.nodup_cons] at hnd
    rcases List.mem_cons.mp h1 with h1 | h1 <;> rcases List.mem_cons.mp h2 with h2 | h2
    · simp at h1 h2
      rw [h1.1, h2.1]
    · simp at h1
      exact absurd (List.mem_map.mpr ⟨(a2, b), h2, by simp [h1.2]⟩) hnd.1
    · simp at h2
      exact absurd (List.mem_map.mpr ⟨(a1, b), h1, by simp [h2.2]⟩) hnd.1
    · exact ih hnd.2 h1 h2

/-! ## Release lemmas shared by the lifecycle claims -/

theorem fats_release_table (st : FState) (fh : Nat) (ro : Bool) :
    (fats_release st fh ro).1.table = assocRemove fh st.table := by
  unfold fats_release
  cases assocGet fh st.table with
  | none => rfl
  | some p => by_cases hp : p ≠ "" <;> cases ro <;> simp [hp]

theorem fats_release_closed (st : FState) (fh : Nat) (ro : Bool) :
    (fats_release st fh ro).2.closed = true := by
  unfold fats_release
  cases assocGet fh st.table with
  | none => rfl
  | some p => by_cases hp : p ≠ "" <;> cases ro <;> simp [hp]

theorem fats_release_no_entry (st : FState) (fh : Nat) (ro : Bool)
    (h : assocGet fh st.table = none) :
    (fats_release st fh ro).2.deleteAttempted = false ∧
      (fats_release st fh ro).1.disk = st.disk := by
  unfold fats_release
  rw [h]
  exact ⟨rfl, rfl⟩

theorem fats_release_entry (st : FState) (fh : Nat) (ro : Bool) (p : String)
    (h : assocGet fh st.table = some p) (hp : p ≠ "") :
    (fats_release st fh ro).2.deleteAttempted = true ∧
      (ro = true → (fats_release st fh ro).1.disk = listRemove p st.disk) ∧
      (ro = false → (fats_release st fh ro).1.disk = st.disk) := by
  unfold fats_release
  rw [h]
  cases ro <;> simp [hp]

/-! ## Preservation of the TempArtifact invariant on failure-free calls -/

theorem goodStep_inv {st st2 : FState} (h : GoodInv st) (hs : GoodStep st st2) : GoodInv st2 := by
  obtain ⟨hinv, hkeys, hvals, hne⟩ := h
  cases hs with
  | openStep env hok hfa hfh hng =>
    obtain ⟨temp, mo, nfh⟩ := env
    cases temp with
    | failNone => exact ⟨hinv, hkeys, hvals, hne⟩
    | failAfter p => exact absurd rfl (hfa p)
    | ok p =>
      obtain ⟨hpd, hpe⟩ := hok p rfl
      have hcleanup : GoodInv (FState.mk st.table (listRemove p (p :: st.disk))) := by
        have h2 : listRemove p (p :: st.disk) = listRemove p st.disk := by
          simp [listRemove]
        rw [h2, listRemove_of_not_mem hpd]
        exact ⟨hinv, hkeys, hvals, hne⟩
      cases mo with
      | notFound => exact hcleanup
      | calledProcessError => exact hcleanup
      | otherError => exact hcleanup
      | ok =>
        cases nfh with
        | none => exact absurd rfl (hng rfl)
        | some fh =>
          have hfhn := hfh fh rfl
          show GoodInv (FState.mk ((fh, p) :: st.table) (p :: st.disk))
          refine ⟨?_, ?_, ?_, ?_⟩
          · intro q
            constructor
            · intro hq
              rcases List.mem_cons.mp hq with hq | hq
              · exact ⟨fh, by simp [hq]⟩
              · obtain ⟨h2, hm⟩ := (hinv q).mp hq
                exact ⟨h2, List.mem_cons_of_mem _ hm⟩
            · rintro ⟨h2, hm⟩
              rcases List.mem_cons.mp hm with hm | hm
              · simp at hm
                simp [hm.2]
              · exact List.mem_cons_of_mem _ ((hinv q).mpr ⟨h2, hm⟩)
          · simp only [List.map_cons]
            refine List.nodup_cons.mpr ⟨?_, hkeys⟩
            intro hmem
            obtain ⟨e, he, hfst⟩ := List.mem_map.mp hmem
            obtain ⟨k, v⟩ := e
            simp at hfst
            subst hfst
            exact not_mem_of_assocGet_none hfhn v he
          · simp only [List.map_cons]
            refine List.nodup_cons.mpr ⟨?_, hvals⟩
            intro hmem
            obtain ⟨e, he, hsnd⟩ := List.mem_map.mp hmem
            obtain ⟨k, v⟩ := e
            simp at hsnd
            subst hsnd
            exact hpd ((hinv v).mpr ⟨k, he⟩)
          · intro e he
            rcases List.mem_cons.mp he with he | he
            · subst he
              exact hpe
            · exact hne e he
  | releaseStep fh =>
    cases hg : assocGet fh st.table with
    | none =>
      have hst : (fats_release st fh true).1 = FState.mk (assocRemove fh st.table) st.disk := by
        unfold fats_release
        rw [hg]
      rw [hst]
      refine ⟨?_, ?_, ?_, ?_⟩
      · intro q
        constructor
        · intro hq
          obtain ⟨h2, hm⟩ := (hinv q).mp hq
          have hne2 : h2 ≠ fh := by
            intro he
            subst he
            exact not_mem_of_assocGet_none hg q hm
          exact ⟨h2, mem_assocRemove.mpr ⟨hm, hne2⟩⟩
        · rintro ⟨h2, hm⟩
          exact (hinv q).mpr ⟨h2, (mem_assocRemove.mp hm).1⟩
      · exact List.Nodup.sublist ((assocRemove_sublist fh st.table).map Prod.fst) hkeys
      · exact List.Nodup.sublist ((assocRemove_sublist fh st.table).map Prod.snd) hvals
      · intro e he
        exact hne e (mem_assocRemove.mp he).1
    | some p =>
      have hpm := assocGet_some_mem hg
      have hpe : p ≠ "" := hne (fh, p) hpm
      have hst : (fats_release st fh true).1
          = FState.mk (assocRemove fh st.table) (listRemove p st.disk) := by
        unfold fats_release
        rw [hg]
        simp [hpe]
      rw [hst]
      refine ⟨?_, ?_, ?_, ?_⟩
      · intro q
        constructor
        · intro hq
          obtain ⟨hqd, hqp⟩ := mem_listRemove.mp hq
          obtain ⟨h2, hm⟩ := (hinv q).mp hqd
          have hne2 : h2 ≠ fh := by
            intro he
            subst he
            have h3 := assocGet_eq_some_of_nodup hkeys hm
            rw [hg] at h3
            exact hqp (Option.some.inj h3).symm
          exact ⟨h2, mem_assocRemove.mpr ⟨hm, hne2⟩⟩
        · rintro ⟨h2, hm⟩
          obtain ⟨hmt, hne2⟩ := mem_assocRemove.mp hm
          refine mem_listRemove.mpr ⟨(hinv q).mpr ⟨h2, hmt⟩, ?_⟩
          intro he
          subst he
          exact hne2 (nodup_values_inj hvals hmt hpm)
      · exact List.Nodup.sublist ((assocRemove_sublist fh st.table).map Prod.fst) hkeys
      · exact List.Nodup.sublist ((assocRemove_sublist fh st.table).map Prod.snd) hvals
      · intro e he
        exact hne e (mem_assocRemove.mp he).1

theorem reachGood_goodInv {st : FState} (h : ReachGood st) : GoodInv st := by
  induction h with
  | init => refine ⟨?_, ?_, ?_, ?_⟩ <;> simp [Inv]
  | step hr hs ih => exact goodStep_inv ih hs

/-! ## Claim theorems for the open/release lifecycle -/

/-- Claim C1: the claim asserts that every error after the temp artifact
is created and before its handle is registered deletes the artifact
before surfacing.  The source violates this: `os.open(temp_fuzzed_path,
flags)` at src/fats.py:216 runs outside any `try`, so when that native
open fails the exception propagates with the artifact still on disk and
no handle registered.  This theorem evaluates the embedded `open` at
that failing input. -/
theorem open_orphans_temp_on_native_open_failure :
    (fats_open (FState.mk [] [])
        (OpenEnv.mk (TempAlloc.ok "/tmp/fuzz0") MutateOutcome.ok none)).2 = OpenResult.raised ∧
    "/tmp/fuzz0" ∈ (fats_open (FState.mk [] [])
        (OpenEnv.mk (TempAlloc.ok "/tmp/fuzz0") MutateOutcome.ok none)).1.disk ∧
    (fats_open (FState.mk [] [])
        (OpenEnv.mk (TempAlloc.ok "/tmp/fuzz0") MutateOutcome.ok none)).1.table = [] := by
  refine ⟨rfl, ?_, rfl⟩
  simp [fats_open]

/-- Claim C2, counterexample: the on-disk/handle-table correspondence is
not maintained on every reachable state.  After a successful open of
handle 3 backed by artifact `/tmp/fuzz0`, a release in which `os.remove`
fails (a branch the source deliberately survives) leaves the artifact on
disk with no live handle mapping to it. -/
theorem invariant_fails_on_unremoved_artifact :
    Reach (FState.mk [] ["/tmp/fuzz0"]) ∧
    ¬ ("/tmp/fuzz0" ∈ (FState.mk [] ["/tmp/fuzz0"]).disk ↔
        ∃ fh, (fh, "/tmp/fuzz0") ∈ (FState.mk [] ["/tmp/fuzz0"]).table) := by
  constructor
  · have e1 : (fats_open (FState.mk [] [])
        (OpenEnv.mk (TempAlloc.ok "/tmp/fuzz0") MutateOutcome.ok (some 3))).1
        = FState.mk [(3, "/tmp/fuzz0")] ["/tmp/fuzz0"] := by decide
    have s1 := Step.openStep (FState.mk [] [])
      (OpenEnv.mk (TempAlloc.ok "/tmp/fuzz0") MutateOutcome.ok (some 3))
      (fun p hp => by cases hp; exact ⟨by simp, by decide⟩)
      (fun p hp => by cases hp)
      (fun fh2 hf => by cases hf; rfl)
    rw [e1] at s1
    have e2 : (fats_release (FState.mk [(3, "/tmp/fuzz0")] ["/tmp/fuzz0"]) 3 false).1
        = FState.mk [] ["/tmp/fuzz0"] := by decide
    have s2 := Step.releaseStep (FState.mk [(3, "/tmp/fuzz0")] ["/tmp/fuzz0"]) 3 false
    rw [e2] at s2
    exact Reach.step (Reach.step Reach.init s1) s2
  · intro hiff
    obtain ⟨fh, hm⟩ := hiff.mp (by simp)
    simp at hm

/-- Claim C2 (amended): at every operation boundary of an execution in
which the native open of each temp artifact succeeds, temp allocation
never fails after the file exists, and every `os.remove` during release
succeeds, a temp artifact is on disk iff some live handle maps to it. -/
theorem temp_artifact_invariant (st : FState) (h : ReachGood st) (p : String) :
    p ∈ st.disk ↔ ∃ fh, (fh, p) ∈ st.table :=
  (reachGood_goodInv h).1 p

/-- Witness for the amended C2 invariant at the concrete state reached
by one successful open. -/
theorem temp_artifact_invariant_witness :
    "/tmp/fuzz0" ∈ (FState.mk [(3, "/tmp/fuzz0")] ["/tmp/fuzz0"]).disk ↔
      ∃ fh, (fh, "/tmp/fuzz0") ∈ (FState.mk [(3, "/tmp/fuzz0")] ["/tmp/fuzz0"]).table := by
  have e1 : (fats_open (FState.mk [] [])
      (OpenEnv.mk (TempAlloc.ok "/tmp/fuzz0") MutateOutcome.ok (some 3))).1
      = FState.mk [(3, "/tmp/fuzz0")] ["/tmp/fuzz0"] := by decide
  have s1 := GoodStep.openStep (FState.mk [] [])
    (OpenEnv.mk (TempAlloc.ok "/tmp/fuzz0") MutateOutcome.ok (some 3))
    (fun p hp => by cases hp; exact ⟨by simp, by decide⟩)
    (fun p hp => by cases hp)
    (fun fh2 hf => by cases hf; rfl)
    (fun _ => by simp)
  rw [e1] at s1
  exact temp_artifact_invariant _ (ReachGood.step ReachGood.init s1) "/tmp/fuzz0"

/-- Claim C3: `release(handle)` pops the handle's entry as part of the
lookup, deletes the temp artifact when an entry was present, treats a
deletion failure as non-fatal, and closes the backing handle on every
branch, entry or not. -/
theorem release_contract (st : FState) (fh : Nat) (ro : Bool) :
    (fats_release st fh ro).2.closed = true ∧
    assocGet fh (fats_release st fh ro).1.table = none ∧
    (∀ p, assocGet fh st.table = some p → p ≠ "" →
      (fats_release st fh ro).2.deleteAttempted = true ∧
      (ro = true → (fats_release st fh ro).1.disk = listRemove p st.disk ∧
        p ∉ (fats_release st fh ro).1.disk) ∧
      (ro = false → (fats_release st fh ro).1.disk = st.disk)) ∧
    (assocGet fh st.table = none →
      (fats_release st fh ro).2.deleteAttempted = false ∧
      (fats_release st fh ro).1.disk = st.disk) := by
  refine ⟨fats_release_closed st fh ro, ?_, ?_, fun hn => fats_release_no_entry st fh ro hn⟩
  · rw [fats_release_table]
    exact assocGet_assocRemove fh st.table
  · intro p hp hpe
    obtain ⟨h1, h2, h3⟩ := fats_release_entry st fh ro p hp hpe
    refine ⟨h1, fun hro => ⟨h2 hro, ?_⟩, h3⟩
    rw [h2 hro]
    intro hmem
    exact (mem_listRemove.mp hmem).2 rfl

/-- Witness for C3 at a table holding handle 3 ↦ `/tmp/a` (released with
a successful delete) and at an empty table. -/
theorem release_contract_witness :
    (fats_release (FState.mk [(3, "/tmp/a")] ["/tmp/a"]) 3 true).2.closed = true ∧
    assocGet 3 (fats_release (FState.mk [(3, "/tmp/a")] ["/tmp/a"]) 3 true).1.table = none ∧
    (fats_release (FState.mk [(3, "/tmp/a")] ["/tmp/a"]) 3 true).2.deleteAttempted = true ∧
    "/tmp/a" ∉ (fats_release (FState.mk [(3, "/tmp/a")] ["/tmp/a"]) 3 true).1.disk ∧
    (fats_release (FState.mk [] []) 7 true).2.deleteAttempted = false := by
  have h := release_contract (FState.mk [(3, "/tmp/a")] ["/tmp/a"]) 3 true
  have h0 := release_contract (FState.mk [] []) 7 true
  refine ⟨h.1, h.2.1, ?_, ?_, ?_⟩
  · exact (h.2.2.1 "/tmp/a" (by decide) (by decide)).1
  · exact ((h.2.2.1 "/tmp/a" (by decide) (by decide)).2.1 rfl).2
  · exact (h0.2.2.2 (by decide)).1

/-- Claim C4: a second `release` of the same handle after a completed
first release finds no table entry (the pop is at-most-once), attempts
no second deletion, leaves the disk unchanged, and still closes without
crashing. -/
theorem double_release_safe (st : FState) (fh : Nat) (r1 r2 : Bool) :
    (fats_release (fats_release st fh r1).1 fh r2).2.deleteAttempted = false ∧
    (fats_release (fats_release st fh r1).1 fh r2).2.closed = true ∧
    (fats_release (fats_release st fh r1).1 fh r2).1.disk = (fats_release st fh r1).1.disk := by
  have ht : assocGet fh (fats_release st fh r1).1.table = none := by
    rw [fats_release_table]
    exact assocGet_assocRemove fh st.table
  obtain ⟨h1, h2⟩ := fats_release_no_entry (fats_release st fh r1).1 fh r2 ht
  exact ⟨h1, fats_release_closed _ _ _, h2⟩

/-! ## Truncate -/

theorem assocGet_assocSet_self {α β : Type} [DecidableEq α] {a : α} {s : List (α × β)} {v : β}
    (h : assocGet a s = some v) (b : β) : assocGet a (assocSet a b s) = some b := by
  induction s with
  | nil => simp [assocGet] at h
  | cons e t ih =>
    obtain ⟨k, w⟩ := e
    by_cases hk : k = a
    · subst hk
      simp [assocSet, assocGet]
    · simp only [assocGet, if_neg hk] at h
      simp only [assocSet, if_neg hk, assocGet, if_neg hk]
      exact ih h

theorem assocGet_assocSet_ne {α β : Type} [DecidableEq α] {a q : α} (hq : q ≠ a) (b : β)
    (s : List (α × β)) : assocGet q (assocSet a b s) = assocGet q s := by
  induction s with
  | nil => rfl
  | cons e t ih =>
    obtain ⟨k, w⟩ := e
    by_cases hk : k = a
    · subst hk
      have hka : ¬ k = q := fun he => hq he.symm
      simp [assocSet, assocGet, hka, ih]
    · by_cases hkq : k = q
      · subst hkq
        simp [assocSet, hk, assocGet]
      · simp [assocSet, hk, assocGet, hkq, ih]

/-- Claim C5, counterexample: with handle 3 bound to temp artifact
`/tmp/a` (size 10) in the table, `truncate(path, 0, 3)` leaves every
file size unchanged — the artifact is not truncated to the requested
length, because the handle branch of the source is `pass`. -/
theorem truncate_handle_ignores_artifact :
    (fats_truncate "/src" [(3, "/tmp/a")] [("/tmp/a", 10), ("/src/f.txt", 5)]
        "/f.txt" 0 (some 3)).1 = [("/tmp/a", 10), ("/src/f.txt", 5)] ∧
    assocGet "/tmp/a" (fats_truncate "/src" [(3, "/tmp/a")] [("/tmp/a", 10), ("/src/f.txt", 5)]
        "/f.txt" 0 (some 3)).1 ≠ some 0 :=
  ⟨rfl, by decide⟩

/-- Claim C5 (amended): handle-based truncate is a silent no-op that
leaves every file — the bound temp artifact and the original source
alike — unchanged; path-only truncate sets the resolved real file's
size to the requested length, leaves every other path unchanged, and
fails when the file does not exist. -/
theorem truncate_contract (root : String) (tbl : HandleTable) (sizes : List (String × Nat))
    (path : String) (len : Nat) :
    (∀ h : Nat, fats_truncate root tbl sizes path len (some h) = (sizes, TruncResult.ok)) ∧
    (∀ sz, assocGet (full_path root path) sizes = some sz →
      assocGet (full_path root path) (fats_truncate root tbl sizes path len none).1 = some len ∧
      (∀ q, q ≠ full_path root path →
        assocGet q (fats_truncate root tbl sizes path len none).1 = assocGet q sizes) ∧
      (fats_truncate root tbl sizes path len none).2 = TruncResult.ok) ∧
    (assocGet (full_path root path) sizes = none →
      fats_truncate root tbl sizes path len none = (sizes, TruncResult.errNoFile)) := by
  refine ⟨fun h => rfl, ?_, ?_⟩
  · intro sz hsz
    have hred : fats_truncate root tbl sizes path len none
        = (assocSet (full_path root path) len sizes, TruncResult.ok) := by
      unfold fats_truncate
      rw [hsz]
    rw [hred]
    exact ⟨assocGet_assocSet_self hsz len, fun q hq => assocGet_assocSet_ne hq len sizes, rfl⟩
  · intro hn
    unfold fats_truncate
    rw [hn]

/-- Witness for C5 (amended): a handle-based call leaves the single real
file untouched; the path-only call truncates it to 4. -/
theorem truncate_contract_witness :
    fats_truncate "/src" [(3, "/tmp/a")] [("/src/f.txt", 10)] "/f.txt" 4 (some 3)
      = ([("/src/f.txt", 10)], TruncResult.ok) ∧
    assocGet "/src/f.txt"
      (fats_truncate "/src" [(3, "/tmp/a")] [("/src/f.txt", 10)] "/f.txt" 4 none).1 = some 4 := by
  have h := truncate_contract "/src" [(3, "/tmp/a")] [("/src/f.txt", 10)] "/f.txt" 4
  refine ⟨h.1 3, ?_⟩
  have e : full_path "/src" "/f.txt" = "/src/f.txt" := by decide
  have h2 := (h.2.1 10 (by decide)).1
  rw [e] at h2
  exact h2

/-! ## Readdir -/

/-- Claim C7: on any directory virtual path, `readdir` yields the finite
sequence starting with the self entry and the parent entry, in that
order, followed by exactly the real children of the resolved
directory. -/
theorem readdir_contract (root : String) (isdir : String → Bool)
    (listdir : String → List String) (path : String)
    (h : isdir (full_path root path) = true) :
    fats_readdir root isdir listdir path
      = "." :: ".." :: listdir (full_path root path) := by
  simp [fats_readdir, h]

/-- Witness for C7 on a directory with children `a.txt`, `b.txt`. -/
theorem readdir_contract_witness :
    fats_readdir "/data" (fun _ => true) (fun _ => ["a.txt", "b.txt"]) "/d"
      = ["." , "..", "a.txt", "b.txt"] := by
  rw [readdir_contract "/data" (fun _ => true) (fun _ => ["a.txt", "b.txt"]) "/d" rfl]

/-! ## Create -/

/-- Claim C9: `create` makes exactly one native create-open call at the
resolved real path with the requested mode, invokes no mutation
collaborator and allocates no temp artifact, leaves the handle table
and disk state unchanged, and returns the driver's descriptor. -/
theorem create_contract (root : String) (st : FState) (path : String) (mode fh : Nat) :
    (fats_create root st path mode fh).1 = st ∧
    (fats_create root st path mode fh).2.1 = [DriverCall.openCreate (full_path root path) mode] ∧
    ((fats_create root st path mode fh).2.1.all DriverCall.isOpenCreate) = true ∧
    (fats_create root st path mode fh).2.2 = fh :=
  ⟨rfl, rfl, rfl, rfl⟩

/-! ## Getattr -/

/-- Claim C10: `getattr` stats the resolved path with the non-following
primitive only: its result is the eight-field projection of `lstat` at
the resolved path, and any two drivers agreeing on `lstat` — however
much their following `stat` views differ at a symlink — produce the
same attribute dictionary. -/
theorem getattr_uses_lstat (root path : String) (d1 d2 : Driver)
    (h : ∀ q, d1.lstatOf q = d2.lstatOf q) :
    fats_getattr root d1 path = fats_getattr root d2 path ∧
    fats_getattr root d1 path = attrDict (d1.lstatOf (full_path root path)) :=
  ⟨by unfold fats_getattr; rw [h], rfl⟩

/-- Witness for C10: two drivers with identical `lstat` views and wildly
different `stat` views return the same dictionary for a symlink path. -/
theorem getattr_uses_lstat_witness :
    fats_getattr "/src"
        (Driver.mk (fun _ => StatRec.mk 1 2 3 4 5 6 7 8) (fun _ => StatRec.mk 0 0 0 0 0 0 0 0))
        "/link"
      = fats_getattr "/src"
        (Driver.mk (fun _ => StatRec.mk 1 2 3 4 5 6 7 8) (fun _ => StatRec.mk 9 9 9 9 9 9 9 9))
        "/link" :=
  (getattr_uses_lstat "/src" "/link" _ _ (fun _ => rfl)).1

/-! ## Readlink -/

theorem normAbsGo_no_dots (cs : List String) :
    ∀ acc, (∀ c ∈ cs, c ≠ "." ∧ c ≠ "..") → normAbsGo acc cs = acc ++ cs := by
  induction cs with
  | nil =>
    intro acc h
    simp [normAbsGo]
  | cons c cs ih =>
    intro acc h
    have hc := h c (List.mem_cons_self c cs)
    simp only [normAbsGo]
    rw [if_neg hc.1, if_neg hc.2,
      ih (acc ++ [c]) (fun d hd => h d (List.mem_cons_of_mem _ hd))]
    simp

theorem commonLen_append (sl rest : List String) : commonLen sl (sl ++ rest) = sl.length := by
  induction sl with
  | nil =>
    cases rest with
    | nil => rfl
    | cons x xs => rfl
  | cons a as ih => simp [commonLen, ih]

/-- Claim C6: a relative stored target passes through `readlink`
unchanged; an absolute stored target lying inside the mirror root
(its components extend the root's, with no `.`/`..` indirection)
is rewritten to the path relative to the mirror root. -/
theorem readlink_contract (root target : String) :
    (startsWithSlash target = false → fats_readlink root target = target) ∧
    (∀ rest, startsWithSlash target = true →
      pathComps target = pathComps root ++ rest →
      (∀ c ∈ pathComps target, c ≠ "." ∧ c ≠ "..") →
      rest ≠ [] →
      fats_readlink root target = joinSlash rest) := by
  constructor
  · intro h
    simp [fats_readlink, h]
  · intro rest habs hsplit hdots hrest
    have hroot : ∀ c ∈ pathComps root, c ≠ "." ∧ c ≠ ".." := fun c hc =>
      hdots c (by rw [hsplit]; exact List.mem_append_left _ hc)
    have h1 : fats_readlink root target = relpath target root := by
      unfold fats_readlink
      rw [habs]
      simp
    rw [h1]
    unfold relpath
    rw [normAbsGo_no_dots _ [] hroot, normAbsGo_no_dots _ [] hdots]
    simp only [List.nil_append]
    rw [hsplit, commonLen_append, Nat.sub_self, List.replicate_zero, List.drop_left,
      List.nil_append, if_neg hrest]

/-- Witness for C6: the relative target `x/y` is unchanged; the absolute
target `/data/a/b` under root `/data` becomes `a/b`. -/
theorem readlink_contract_witness :
    fats_readlink "/data" "x/y" = "x/y" ∧ fats_readlink "/data" "/data/a/b" = "a/b" := by
  refine ⟨(readlink_contract "/data" "x/y").1 (by decide), ?_⟩
  have h := (readlink_contract "/data" "/data/a/b").2 ["a", "b"]
    (by decide) (by decide) (by decide) (by decide)
  rw [h]
  decide

/-! ## Path resolution -/

/-- Claim C8, counterexample: the virtual path `//x` resolves to `/x`,
which does not lie within the mirror root `/src` — `os.path.join`
discards the root because the remainder after stripping a single
leading separator is still absolute. -/
theorem full_path_escapes_root :
    full_path "/src" "//x" = "/x" ∧ ¬ ∃ r, full_path "/src" "//x" = "/src" ++ r := by
  refine ⟨by decide, ?_⟩
  rintro ⟨r, hr⟩
  have h0 : full_path "/src" "//x" = "/x" := by decide
  rw [h0] at hr
  have hl := congrArg String.length hr
  rw [String.length_append] at hl
  have e1 : ("/x" : String).length = 2 := by decide
  have e2 : ("/src" : String).length = 4 := by decide
  rw [e1, e2] at hl
  omega

/-- Claim C8 (amended): `_full_path` strips one leading separator when
present and joins the remainder with the mirror root; it is total; and
whenever the remainder does not itself begin with a separator (and the
root is non-empty without a trailing separator) the result is
`root ++ "/" ++ remainder`, hence syntactically within the root. -/
theorem full_path_contract (root vp : String) (h1 : root ≠ "")
    (h2 : endsWithSlash root = false)
    (h3 : startsWithSlash (stripLeadingSlash vp) = false) :
    full_path root vp = root ++ "/" ++ stripLeadingSlash vp ∧
    ∃ r, full_path root vp = root ++ r := by
  have key : full_path root vp = os_path_join root (stripLeadingSlash vp) := by
    unfold full_path stripLeadingSlash
    cases hs : startsWithSlash vp <;> simp [hs]
  have hj : os_path_join root (stripLeadingSlash vp) = root ++ "/" ++ stripLeadingSlash vp := by
    unfold os_path_join
    simp [h3, h1, h2]
  refine ⟨key.trans hj, ⟨"/" ++ stripLeadingSlash vp, ?_⟩⟩
  rw [key, hj, String.append_assoc]

/-- Witness for C8 (amended) at root `/src` and virtual path `/a.txt`. -/
theorem full_path_contract_witness :
    full_path "/src" "/a.txt" = "/src" ++ "/" ++ stripLeadingSlash "/a.txt" ∧
    ∃ r, full_path "/src" "/a.txt" = "/src" ++ r :=
  full_path_contract "/src" "/a.txt" (by decide) (by decide) (by decide)

end FATS
